import Mathlib

/-!
Verification of the cbp-build-manager build-orchestration core against its
specification.  The definitions below are shallow embeddings of the
TypeScript source (CHANGELOG.md code listing, v0.0.10): strings are
modelled as `List Char` where character-level evaluation is needed,
JavaScript numbers arising from version components as `Nat`, and the
stateful classes (`OutputLineBuffer`, `CbpDataManager`) as explicit state
passing.
-/

namespace CbpBuildManager

/-! ### VersionComparator: `compareVersions` -/

/-- Split a character list on `'.'`, as `version.split('.')`.
`[]` (the empty string) splits to one empty component. -/
def splitOnDot : List Char → List (List Char)
  | [] => [[]]
  | c :: rest =>
    let r := splitOnDot rest
    if c = '.' then [] :: r
    else
      match r with
      | h :: t => (c :: h) :: t
      | [] => [[c]]

/-- One dotted component, as the source's `Number(x) || 0`: a string of
decimal digits parses to its value, `""` and anything non-numeric count
as `0`. -/
def parseComponent (l : List Char) : Nat :=
  if l ≠ [] ∧ l.all Char.isDigit then
    l.foldl (fun n c => n * 10 + (c.toNat - '0'.toNat)) 0
  else 0

/-- `version.split('.').map(Number)` with the `|| 0` default applied to
each component as it is read. -/
def versionPartsL (l : List Char) : List Nat :=
  (splitOnDot l).map parseComponent

/-- The comparison loop of `compareVersions` once the left list is
exhausted: every remaining left component reads as `0`. -/
def cmpNil : List Nat → Bool
  | [] => true
  | y :: ys => if 0 < y then false else cmpNil ys

/-- The comparison loop of `compareVersions`: indices run up to the longer
length, a missing component reads as `0` (`v1Parts[i] || 0`), the first
strict difference decides, and full agreement falls through to `true`. -/
def cmpGE : List Nat → List Nat → Bool
  | [], ys => cmpNil ys
  | x :: xs, [] => if 0 < x then true else cmpGE xs []
  | x :: xs, y :: ys =>
    if y < x then true
    else if x < y then false
    else cmpGE xs ys

/-- `compareVersions(version1, version2)` on character lists. -/
def compareVersionsCore (version1 version2 : List Char) : Bool :=
  cmpGE (versionPartsL version1) (versionPartsL version2)

/-- `compareVersions(version1, version2)` from the source: `true` iff
`version1 >= version2`. -/
def compareVersions (version1 version2 : String) : Bool :=
  compareVersionsCore version1.data version2.data

/-- Modelled from the spec's words, for comparison with the source
function: `a ≥ b` when numeric components are compared left to right with
missing trailing components treated as `0` — at every index whose strict
prefix of components agrees, `a`'s component is at least `b`'s. -/
def specVersionGE (l1 l2 : List Nat) : Prop :=
  ∀ i, (∀ j, j < i → l1.getD j 0 = l2.getD j 0) → l2.getD i 0 ≤ l1.getD i 0

theorem getD_nil_zero (i : Nat) : ([] : List Nat).getD i 0 = 0 := by
  cases i <;> rfl

theorem specVersionGE_nil_cons {y : Nat} {ys : List Nat} :
    specVersionGE [] (y :: ys) ↔ y = 0 ∧ specVersionGE [] ys := by
  constructor
  · intro h
    have h0 := h 0 (by intro j hj; omega)
    simp [List.getD] at h0
    refine ⟨by omega, ?_⟩
    intro i hpre
    have := h (i + 1) ?_
    · simpa [List.getD] using this
    · intro j hj
      cases j with
      | zero => simp [List.getD]; omega
      | succ k =>
        have := hpre k (by omega)
        simpa [List.getD, getD_nil_zero] using this
  · rintro ⟨hy, h⟩ i hpre
    cases i with
    | zero => simp [List.getD]; omega
    | succ k =>
      have := h k ?_
      · simpa [List.getD, getD_nil_zero] using this
      · intro j hj
        have := hpre (j + 1) (by omega)
        simpa [List.getD, getD_nil_zero, hy] using this

theorem specVersionGE_cons_nil {x : Nat} {xs : List Nat} :
    specVersionGE (x :: xs) [] ↔ 0 < x ∨ (x = 0 ∧ specVersionGE xs []) := by
  constructor
  · intro h
    by_cases hx : 0 < x
    · exact Or.inl hx
    · refine Or.inr ⟨by omega, ?_⟩
      intro i hpre
      have := h (i + 1) ?_
      · simp [List.getD, getD_nil_zero]
      · intro j hj
        cases j with
        | zero => simp [List.getD]; omega
        | succ k =>
          have := hpre k (by omega)
          simpa [List.getD, getD_nil_zero] using this
  · intro h i hpre
    rcases h with hx | ⟨hx, h⟩
    · cases i with
      | zero => simp [List.getD, getD_nil_zero]
      | succ k =>
        have := hpre 0 (by omega)
        simp [List.getD, getD_nil_zero] at this
        omega
    · cases i with
      | zero => simp [List.getD, getD_nil_zero]
      | succ k =>
        have := h k ?_
        · simp [List.getD, getD_nil_zero]
        · intro j hj
          have := hpre (j + 1) (by omega)
          simpa [List.getD, getD_nil_zero] using this

theorem specVersionGE_cons_cons {x y : Nat} {xs ys : List Nat} :
    specVersionGE (x :: xs) (y :: ys) ↔ y < x ∨ (x = y ∧ specVersionGE xs ys) := by
  constructor
  · intro h
    by_cases hxy : y < x
    · exact Or.inl hxy
    · have h0 := h 0 (by intro j hj; omega)
      simp [List.getD] at h0
      refine Or.inr ⟨by omega, ?_⟩
      intro i hpre
      have := h (i + 1) ?_
      · simpa [List.getD] using this
      · intro j hj
        cases j with
        | zero => simp [List.getD]; omega
        | succ k =>
          have := hpre k (by omega)
          simpa [List.getD] using this
  · intro h i hpre
    rcases h with hxy | ⟨hxy, h⟩
    · cases i with
      | zero => simp [List.getD]; omega
      | succ k =>
        have := hpre 0 (by omega)
        simp [List.getD] at this
        omega
    · cases i with
      | zero => simp [List.getD]; omega
      | succ k =>
        have := h k ?_
        · simpa [List.getD] using this
        · intro j hj
          have := hpre (j + 1) (by omega)
          simpa [List.getD, hxy] using this

theorem cmpNil_iff : ∀ ys : List Nat, (cmpNil ys = true ↔ specVersionGE [] ys)
  | [] => by
      constructor
      · intro _ i _
        simp [getD_nil_zero]
      · intro _
        rfl
  | y :: ys => by
      rw [specVersionGE_nil_cons]
      by_cases hy : 0 < y
      · simp [cmpNil, hy]
        omega
      · have hy0 : y = 0 := by omega
        simp [cmpNil, hy, hy0]
        exact cmpNil_iff ys

theorem cmpGE_iff : ∀ l1 l2 : List Nat, (cmpGE l1 l2 = true ↔ specVersionGE l1 l2)
  | [], l2 => cmpNil_iff l2
  | x :: xs, [] => by
      rw [specVersionGE_cons_nil]
      by_cases hx : 0 < x
      · simp [cmpGE, hx]
      · have hx0 : x = 0 := by omega
        simp [cmpGE, hx, hx0]
        exact cmpGE_iff xs []
  | x :: xs, y :: ys => by
      rw [specVersionGE_cons_cons]
      by_cases hlt : y < x
      · simp [cmpGE, hlt]
      · by_cases hgt : x < y
        · simp [cmpGE, hlt, hgt]
          omega
        · have hxy : x = y := by omega
          simp [cmpGE, hlt, hgt, hxy]
          exact cmpGE_iff xs ys

/-- C1: `compareVersions(a, b)` returns `true` iff `a`'s numeric components
are ≥ `b`'s compared left to right with missing trailing components treated
as `0` (in particular `true` when all components are equal), and the three
documented examples evaluate as stated. -/
theorem compareVersions_correct :
    (∀ a b : String,
      compareVersions a b = true ↔ specVersionGE (versionPartsL a.data) (versionPartsL b.data))
    ∧ compareVersions "1.2.7" "1.2.6" = true
    ∧ compareVersions "1.1.9" "1.2.0" = false
    ∧ compareVersions "1.2" "1.2.0" = true :=
  ⟨fun a b => cmpGE_iff (versionPartsL a.data) (versionPartsL b.data),
   by decide, by decide, by decide⟩

/-! ### OutputLineBuffer

The class keeps a string buffer; `append` concatenates the chunk and then
repeatedly cuts at the first `'\n'`, emitting `substring(0, index)` with
`.replace(/\r$/, '')` applied, and keeps `substring(index + 1)`.  `flush`
emits the raw remainder when `buffer.trim().length > 0` and clears it.
The state is modelled as `(emitted lines so far, current buffer)`. -/

/-- `line.replace(/\r$/, '')`: strip exactly one trailing `'\r'`. -/
def stripTrailingCR (l : List Char) : List Char :=
  match l.getLast? with
  | some '\r' => l.dropLast
  | _ => l

/-- Prepend a character to the first pending line (or to the remainder when
no complete line follows). -/
def consLine (c : Char) : List (List Char) × List Char → List (List Char) × List Char
  | (line :: ls, rem) => ((c :: line) :: ls, rem)
  | ([], rem) => ([], c :: rem)

/-- Denotation of the `while ((index = buffer.indexOf('\n')) !== -1)` loop:
the segments before each `'\n'` (in arrival order, `'\n'` consumed, not
included) and the unterminated remainder after the last `'\n'`. -/
def extractLines : List Char → List (List Char) × List Char
  | [] => ([], [])
  | c :: rest =>
    if c = '\n' then ([] :: (extractLines rest).1, (extractLines rest).2)
    else consLine c (extractLines rest)

/-- `append(chunk)`: concatenate onto the buffer, emit every complete line
(with one trailing `'\r'` stripped), keep the remainder. -/
def lbAppend (st : List (List Char) × List Char) (chunk : List Char) :
    List (List Char) × List Char :=
  ((st.1 ++ (extractLines (st.2 ++ chunk)).1.map stripTrailingCR),
   (extractLines (st.2 ++ chunk)).2)

/-- Feed a sequence of chunks into a fresh `OutputLineBuffer`. -/
def lbFeed (chunks : List (List Char)) : List (List Char) × List Char :=
  chunks.foldl lbAppend ([], [])

/-- `flush()`: emit the raw remainder as a final line iff
`buffer.trim().length > 0` (it contains a non-whitespace character), and
clear the buffer in that case. -/
def lbFlush (st : List (List Char) × List Char) : List (List Char) × List Char :=
  if st.2.any (fun c => !c.isWhitespace) then (st.1 ++ [st.2], []) else st

theorem extractLines_append (l1 l2 : List Char) :
    extractLines (l1 ++ l2)
      = ((extractLines l1).1 ++ (extractLines ((extractLines l1).2 ++ l2)).1,
         (extractLines ((extractLines l1).2 ++ l2)).2) := by
  induction l1 with
  | nil => simp [extractLines]
  | cons c cs ih =>
    by_cases hc : c = '\n'
    · simp [extractLines, hc, ih]
    · rcases hcs : extractLines cs with ⟨ls1, r1⟩
      cases ls1 with
      | nil => simp [extractLines, hc, consLine, ih, hcs]
      | cons l ls => simp [extractLines, hc, consLine, ih, hcs]

theorem extractLines_of_no_newline (l : List Char) (h : '\n' ∉ l) :
    extractLines l = ([], l) := by
  induction l with
  | nil => rfl
  | cons c cs ih =>
    have hc : ¬c = '\n' := fun hcc => h (by simp [hcc])
    have hcs : '\n' ∉ cs := fun hm => h (List.mem_cons_of_mem _ hm)
    simp [extractLines, hc, ih hcs, consLine]

theorem newline_not_mem_extract_rem (l : List Char) :
    '\n' ∉ (extractLines l).2 := by
  induction l with
  | nil => simp [extractLines]
  | cons c cs ih =>
    by_cases hc : c = '\n'
    · simpa [extractLines, hc] using ih
    · rcases hcs : extractLines cs with ⟨ls, rem⟩
      rw [hcs] at ih
      cases ls with
      | nil =>
        simp only [extractLines, if_neg hc, hcs, consLine]
        simp only [List.mem_cons, not_or]
        exact ⟨fun hcc => hc hcc.symm, ih⟩
      | cons x xs => simpa [extractLines, hc, hcs, consLine] using ih

theorem lbFeed_foldl (chunks : List (List Char)) :
    ∀ st : List (List Char) × List Char, '\n' ∉ st.2 →
      chunks.foldl lbAppend st
        = (st.1 ++ (extractLines (st.2 ++ chunks.flatten)).1.map stripTrailingCR,
           (extractLines (st.2 ++ chunks.flatten)).2) := by
  induction chunks with
  | nil =>
    intro st hst
    simp [extractLines_of_no_newline st.2 hst]
  | cons c cs ih =>
    intro st hst
    rw [List.foldl_cons, ih (lbAppend st c) (newline_not_mem_extract_rem (st.2 ++ c))]
    simp only [lbAppend, List.flatten_cons, ← List.append_assoc]
    rw [extractLines_append (st.2 ++ c) cs.flatten]
    simp

/-- C4: feeding any sequence of chunks emits exactly the complete lines of
the concatenated stream in arrival order — each the text before a `'\n'`
with one trailing `'\r'` stripped — and retains only the unterminated
remainder, so the callback never fires with a partial line; `flush` emits
the remainder as a final line iff it contains a non-whitespace character
and clears the buffer when it does; `stripTrailingCR` removes exactly one
trailing `'\r'`; the documented examples hold: `"ab"` then `"c\nde"` then
flush yields exactly `"abc"` and `"de"`, and an internal `'\r'` survives
while the trailing one is stripped. -/
theorem outputLineBuffer_correct :
    (∀ chunks : List (List Char),
      lbFeed chunks
        = ((extractLines chunks.flatten).1.map stripTrailingCR,
           (extractLines chunks.flatten).2))
    ∧ (∀ emitted buffer, lbFlush (emitted, buffer)
        = if buffer.any (fun c => !c.isWhitespace) then (emitted ++ [buffer], [])
          else (emitted, buffer))
    ∧ (∀ l : List Char, stripTrailingCR (l ++ ['\r']) = l)
    ∧ (lbFlush (lbFeed ["ab".data, "c\nde".data])).1 = ["abc".data, "de".data]
    ∧ (lbFeed ["x\ry\r\r\n".data]).1 = ["x\ry\r".data] := by
  refine ⟨?_, ?_, ?_, by decide, by decide⟩
  · intro chunks
    have := lbFeed_foldl chunks ([], []) (by simp)
    simpa [lbFeed] using this
  · intro emitted buffer
    rfl
  · intro l
    simp [stripTrailingCR]

/-! ### `formatOutput`: line-ending normalization

`formatOutput` runs three global replaces in order:
`\r\n -> \n`, then `\r -> \n`, then `\n -> \r\n`. -/

/-- `text.replace(/\r\n/g, '\n')`: left-to-right, non-overlapping. -/
def collapseCRLF : List Char → List Char
  | [] => []
  | [c] => [c]
  | c1 :: c2 :: rest =>
    if c1 = '\r' ∧ c2 = '\n' then '\n' :: collapseCRLF rest
    else c1 :: collapseCRLF (c2 :: rest)

/-- `text.replace(/\r/g, '\n')`. -/
def loneCRtoLF (l : List Char) : List Char :=
  l.map (fun c => if c = '\r' then '\n' else c)

/-- `text.replace(/\n/g, '\r\n')`. -/
def expandLF : List Char → List Char
  | [] => []
  | c :: rest => if c = '\n' then '\r' :: '\n' :: expandLF rest else c :: expandLF rest

/-- `formatOutput(text)`: collapse every line-ending variant to `'\n'`,
then expand each `'\n'` to `"\r\n"`. -/
def formatOutput (text : List Char) : List Char :=
  expandLF (loneCRtoLF (collapseCRLF text))

theorem collapseCRLF_cons_ne (c : Char) (l : List Char) (hc : c ≠ '\r') :
    collapseCRLF (c :: l) = c :: collapseCRLF l := by
  cases l with
  | nil => rfl
  | cons c2 rest =>
    have : ¬(c = '\r' ∧ c2 = '\n') := fun h => hc h.1
    simp [collapseCRLF, this]

theorem cr_not_mem_loneCRtoLF (l : List Char) : '\r' ∉ loneCRtoLF l := by
  intro hmem
  rcases List.mem_map.mp hmem with ⟨c, _, hc⟩
  by_cases h : c = '\r' <;> simp [h] at hc

theorem loneCRtoLF_of_cr_free (l : List Char) (h : '\r' ∉ l) :
    loneCRtoLF l = l := by
  induction l with
  | nil => rfl
  | cons c cs ih =>
    have hc : ¬c = '\r' := fun hcc => h (by simp [hcc])
    have hcs : '\r' ∉ cs := fun hm => h (List.mem_cons_of_mem _ hm)
    simp [loneCRtoLF, hc] at ih ⊢
    exact ih hcs

theorem collapseCRLF_expandLF (l : List Char) (h : '\r' ∉ l) :
    collapseCRLF (expandLF l) = l := by
  induction l with
  | nil => rfl
  | cons c cs ih =>
    have hc : ¬c = '\r' := fun hcc => h (by simp [hcc])
    have hcs : '\r' ∉ cs := fun hm => h (List.mem_cons_of_mem _ hm)
    by_cases hn : c = '\n'
    · subst hn
      cases hcr : expandLF cs with
      | nil =>
        have hcs2 : cs = [] := by
          have h2 := ih hcs
          rw [hcr] at h2
          simpa [collapseCRLF] using h2.symm
        subst hcs2
        decide
      | cons d ds =>
        simp only [expandLF, if_pos rfl]
        rw [hcr] at ih ⊢
        simp [collapseCRLF, ih hcs]
    · rw [show expandLF (c :: cs) = c :: expandLF cs by simp [expandLF, hn],
          collapseCRLF_cons_ne c (expandLF cs) hc, ih hcs]

/-- C5: `formatOutput` collapses every line-ending variant (`"\r\n"`, lone
`'\r'`, lone `'\n'`) to the canonical `'\n'` and re-expands each canonical
newline to `"\r\n"` (the stated pipeline), and it is idempotent: applying
it twice yields the same output as applying it once. -/
theorem formatOutput_idempotent :
    (∀ t : List Char, formatOutput t = expandLF (loneCRtoLF (collapseCRLF t)))
    ∧ (∀ t : List Char, formatOutput (formatOutput t) = formatOutput t)
    ∧ formatOutput "a\r\nb\rc\nd".data = "a\r\nb\r\nc\r\nd".data := by
  refine ⟨fun t => rfl, ?_, by decide⟩
  intro t
  show expandLF (loneCRtoLF (collapseCRLF (formatOutput t))) = formatOutput t
  have hcrfree : '\r' ∉ loneCRtoLF (collapseCRLF t) := cr_not_mem_loneCRtoLF _
  rw [show formatOutput t = expandLF (loneCRtoLF (collapseCRLF t)) from rfl,
      collapseCRLF_expandLF _ hcrfree, loneCRtoLF_of_cr_free _ hcrfree]

/-! ### `handleLineOutput`, progress branch

A line matching `/^(\[\d+\/\d+\])\s+(.*)/` is rendered in place:
`pty.writeRaw('\r\x1b[K\x1b[32m' + prefix + '\x1b[0m ' + shortMsg)` with no
terminating newline.  `shortMsg` is `'Building ' + path.basename(m)` for
the first match `m` of `/([^\s"]+\.(c|cpp|cc|cxx|S|s|ld|xm))\b/i` in the
remainder, else the raw remainder.  Whitespace is modelled with
`Char.isWhitespace` (space, tab, CR, LF), word characters as
`[A-Za-z0-9_]`, and `path.basename` with both separators as on win32. -/

/-- A character the regex class `[^\s"]` accepts. -/
def isTokenChar (c : Char) : Bool :=
  !c.isWhitespace && c != '"'

/-- The extension alternation `(c|cpp|cc|cxx|S|s|ld|xm)` in source order,
lowered once since the regex is case-insensitive. -/
def extAllowList : List (List Char) :=
  ["c".data, "cpp".data, "cc".data, "cxx".data, "s".data, "s".data, "ld".data, "xm".data]

/-- `\b` directly after `k` consumed word characters: the next character is
absent or not a word character. -/
def wordBoundaryAfter (l : List Char) (k : Nat) : Bool :=
  match l.drop k with
  | [] => true
  | c :: _ => !(c.isAlphanum || c == '_')

/-- Try the extension alternatives in order at the front of `l`
(case-insensitively), requiring a word boundary after the match; returns
the matched characters with their original case. -/
def extMatchAux : List (List Char) → List Char → Option (List Char)
  | [], _ => none
  | ext :: exts, l =>
    if (l.take ext.length).map Char.toLower = ext ∧ wordBoundaryAfter l ext.length = true
    then some (l.take ext.length)
    else extMatchAux exts l

/-- Backtracking of the greedy `[^\s"]+`: try prefix lengths of the
non-space run from longest to shortest; each split must be followed by a
literal `'.'` and then a matching extension alternative. -/
def tokenSplitAt (s : List Char) : Nat → Option (List Char)
  | 0 => none
  | n + 1 =>
    match s.drop (n + 1) with
    | '.' :: afterDot =>
      match extMatchAux extAllowList afterDot with
      | some ext => some (s.take (n + 1) ++ '.' :: ext)
      | none => tokenSplitAt s n
    | _ => tokenSplitAt s n

/-- Attempt a match of `([^\s"]+\.(c|cpp|cc|cxx|S|s|ld|xm))\b` starting
exactly at the front of `s`. -/
def tokenAt (s : List Char) : Option (List Char) :=
  if (s.takeWhile isTokenChar).length = 0 then none
  else tokenSplitAt s (s.takeWhile isTokenChar).length

/-- The first (leftmost) match of the source-file-token regex in the line:
start positions are tried left to right, as the regex engine does. -/
def firstFileToken : List Char → Option (List Char)
  | [] => none
  | c :: rest =>
    match tokenAt (c :: rest) with
    | some tok => some tok
    | none => firstFileToken rest

/-- Accumulator pass for `path.basename`: restart after each separator. -/
def basenameAux (acc : List Char) : List Char → List Char
  | [] => acc
  | c :: rest =>
    if c = '/' ∨ c = '\\' then basenameAux [] rest else basenameAux (acc ++ [c]) rest

/-- `path.basename(p)` (win32 separators; tokens here never end in a
separator, where node also strips trailing separators). -/
def jsBasename (l : List Char) : List Char := basenameAux [] l

/-- `shortMsg`: `Building <basename>` when the heuristic finds a source
file token, else the raw remainder of the progress line. -/
def progressLabel (rest : List Char) : List Char :=
  match firstFileToken rest with
  | some tok => "Building ".data ++ jsBasename tok
  | none => rest

/-- Parse `/^(\[\d+\/\d+\])\s+(.*)/`: returns the bracketed fraction
(group 1) and the remainder after the greedy `\s+`. -/
def parseProgress (line : List Char) : Option (List Char × List Char) :=
  match line with
  | '[' :: r1 =>
    match r1.dropWhile Char.isDigit with
    | '/' :: r3 =>
      match r3.dropWhile Char.isDigit with
      | ']' :: r5 =>
        if (r1.takeWhile Char.isDigit).length = 0
            ∨ (r3.takeWhile Char.isDigit).length = 0
            ∨ (r5.takeWhile Char.isWhitespace).length = 0 then none
        else some ('[' :: (r1.takeWhile Char.isDigit ++ '/' :: (r3.takeWhile Char.isDigit ++ [']'])),
                   r5.dropWhile Char.isWhitespace)
      | _ => none
    | _ => none
  | _ => none

/-- The ANSI escape character. -/
def escChar : Char := '\x1b'

/-- `\x1b[K`: erase from the cursor to the end of the line. -/
def clearSeq : List Char := [escChar, '[', 'K']

/-- `\x1b[32m`: green foreground. -/
def greenSeq : List Char := [escChar, '[', '3', '2', 'm']

/-- `\x1b[0m`: reset attributes. -/
def resetSeq : List Char := [escChar, '[', '0', 'm']

/-- The progress branch of `handleLineOutput`: when the line carries a
leading bracketed fraction, `writeRaw` receives carriage return, clear to
end of line, the colorized fraction and the label, with no newline. -/
def renderProgress (line : List Char) : Option (List Char) :=
  match parseProgress line with
  | some (fr, rest) =>
    some ('\r' :: (clearSeq ++ greenSeq ++ fr ++ resetSeq ++ ' ' :: progressLabel rest))
  | none => none

theorem parseProgress_shape {line fr rest : List Char}
    (h : parseProgress line = some (fr, rest)) :
    ∃ d1 d2 w, fr = '[' :: (d1 ++ '/' :: (d2 ++ [']']))
      ∧ line = '[' :: (d1 ++ '/' :: (d2 ++ ']' :: (w ++ rest))) := by
  unfold parseProgress at h
  split at h
  all_goals try exact Option.noConfusion h
  rename_i r1
  split at h
  all_goals try exact Option.noConfusion h
  rename_i r3 heq1
  split at h
  all_goals try exact Option.noConfusion h
  rename_i r5 heq2
  split at h
  · exact Option.noConfusion h
  · simp only [Option.some.injEq, Prod.mk.injEq] at h
    refine ⟨r1.takeWhile Char.isDigit, r3.takeWhile Char.isDigit,
            r5.takeWhile Char.isWhitespace, h.1.symm, ?_⟩
    have e1 : r1 = r1.takeWhile Char.isDigit ++ '/' :: r3 := by
      conv_lhs => rw [← List.takeWhile_append_dropWhile (p := Char.isDigit) (l := r1)]
      rw [heq1]
    have e3 : r5 = r5.takeWhile Char.isWhitespace ++ rest := by
      conv_lhs => rw [← List.takeWhile_append_dropWhile (p := Char.isWhitespace) (l := r5)]
      rw [h.2]
    have e2 : r3 = r3.takeWhile Char.isDigit ++ ']' :: (r5.takeWhile Char.isWhitespace ++ rest) := by
      conv_lhs => rw [← List.takeWhile_append_dropWhile (p := Char.isDigit) (l := r3)]
      rw [heq2, ← e3]
    simp only [List.cons.injEq, true_and]
    conv_lhs => rw [e1]
    simp only [List.append_cancel_left_eq, List.cons.injEq, true_and]
    exact e2

theorem extMatchAux_subset :
    ∀ (exts : List (List Char)) (l e : List Char), extMatchAux exts l = some e →
      ∀ c ∈ e, c ∈ l := by
  intro exts
  induction exts with
  | nil => intro l e h; exact Option.noConfusion h
  | cons ext rest ih =>
    intro l e h c hc
    unfold extMatchAux at h
    split at h
    · cases h
      exact List.take_subset _ _ hc
    · exact ih l e h c hc

theorem tokenSplitAt_subset (s : List Char) :
    ∀ (n : Nat) (tok : List Char), tokenSplitAt s n = some tok →
      ∀ c ∈ tok, c ∈ s := by
  intro n
  induction n with
  | zero => intro tok h; exact Option.noConfusion h
  | succ k ih =>
    intro tok h c hc
    unfold tokenSplitAt at h
    split at h
    case h_1 afterDot hdrop =>
      split at h
      case h_1 ext hext =>
        cases h
        rcases List.mem_append.mp hc with hmem | hmem
        · exact List.take_subset _ _ hmem
        · have hsub : c ∈ '.' :: afterDot := by
            rcases hmem with _ | hmem2
            · exact List.mem_cons_self _ _
            · exact List.mem_cons_of_mem _ (extMatchAux_subset _ _ _ hext c (by assumption))
          rw [← hdrop] at hsub
          exact List.drop_subset _ _ hsub
      case h_2 => exact ih tok h c hc
    case h_2 => exact ih tok h c hc

theorem tokenAt_subset {s tok : List Char} (h : tokenAt s = some tok) :
    ∀ c ∈ tok, c ∈ s := by
  unfold tokenAt at h
  split at h
  · exact Option.noConfusion h
  · exact tokenSplitAt_subset s _ tok h

theorem firstFileToken_subset :
    ∀ (l tok : List Char), firstFileToken l = some tok → ∀ c ∈ tok, c ∈ l := by
  intro l
  induction l with
  | nil => intro tok h; exact Option.noConfusion h
  | cons x rest ih =>
    intro tok h c hc
    unfold firstFileToken at h
    split at h
    case h_1 t ht =>
      cases h
      exact tokenAt_subset ht c hc
    case h_2 => exact List.mem_cons_of_mem _ (ih tok h c hc)

theorem basenameAux_subset :
    ∀ (l acc : List Char) (c : Char), c ∈ basenameAux acc l → c ∈ acc ∨ c ∈ l := by
  intro l
  induction l with
  | nil => intro acc c hc; exact Or.inl hc
  | cons x rest ih =>
    intro acc c hc
    unfold basenameAux at hc
    split at hc
    · rcases ih [] c hc with h | h
      · exact absurd h (by simp)
      · exact Or.inr (List.mem_cons_of_mem _ h)
    · rcases ih (acc ++ [x]) c hc with h | h
      · rcases List.mem_append.mp h with h2 | h2
        · exact Or.inl h2
        · simp at h2
          exact Or.inr (by simp [h2])
      · exact Or.inr (List.mem_cons_of_mem _ h)

theorem newline_not_mem_progressLabel {rest : List Char} (h : '\n' ∉ rest) :
    '\n' ∉ progressLabel rest := by
  unfold progressLabel
  split
  case h_1 tok htok =>
    intro hmem
    rcases List.mem_append.mp hmem with h2 | h2
    · revert h2; decide
    · rcases basenameAux_subset tok [] '\n' h2 with h3 | h3
      · simp at h3
      · exact h (firstFileToken_subset rest tok htok '\n' h3)
  case h_2 => exact h

/-- C6: a line with a leading bracketed fraction renders as a carriage
return, a clear-to-end-of-line sequence, the colorized fraction and a
label, with no newline anywhere in the rendered text (so nothing
terminates the line); the label is `Building <basename>` of the first
regex match of a token whose extension is in the fixed allow-list, and the
raw remainder otherwise; in particular `"[3/10] cc -c foo.c -o foo.o"`
renders with the label `"Building foo.c"`. -/
theorem renderProgress_correct :
    (∀ line fr rest : List Char, parseProgress line = some (fr, rest) →
      renderProgress line
        = some ('\r' :: (clearSeq ++ greenSeq ++ fr ++ resetSeq ++ ' ' :: progressLabel rest)))
    ∧ (∀ rest tok : List Char, firstFileToken rest = some tok →
        progressLabel rest = "Building ".data ++ jsBasename tok)
    ∧ (∀ rest : List Char, firstFileToken rest = none → progressLabel rest = rest)
    ∧ (∀ line out : List Char, '\n' ∉ line → renderProgress line = some out →
        out ≠ [] ∧ '\n' ∉ out)
    ∧ renderProgress "[3/10] cc -c foo.c -o foo.o".data
        = some "\r\x1b[K\x1b[32m[3/10]\x1b[0m Building foo.c".data := by
  refine ⟨?_, ?_, ?_, ?_, by decide⟩
  · intro line fr rest h
    simp [renderProgress, h]
  · intro rest tok h
    simp [progressLabel, h]
  · intro rest h
    simp [progressLabel, h]
  · intro line out hline hout
    unfold renderProgress at hout
    split at hout
    case h_2 => exact Option.noConfusion hout
    case h_1 fr rest hparse =>
      cases hout
      refine ⟨by simp, ?_⟩
      rcases parseProgress_shape hparse with ⟨d1, d2, w, hfr, hline2⟩
      have hfr_line : ∀ c, c ∈ fr → c ∈ line := by
        intro c hc
        rw [hfr] at hc
        rw [hline2]
        simp only [List.mem_cons, List.mem_append] at hc ⊢
        tauto
      have hrest_line : ∀ c, c ∈ rest → c ∈ line := by
        intro c hc
        rw [hline2]
        simp only [List.mem_cons, List.mem_append]
        tauto
      have hlabel : '\n' ∉ progressLabel rest :=
        newline_not_mem_progressLabel (fun hm => hline (hrest_line _ hm))
      intro hmem
      have hsplit : '\n' = '\r' ∨ '\n' ∈ clearSeq ∨ '\n' ∈ greenSeq ∨ '\n' ∈ fr
          ∨ '\n' ∈ resetSeq ∨ '\n' = ' ' ∨ '\n' ∈ progressLabel rest := by
        simp only [List.mem_cons, List.mem_append] at hmem
        tauto
      rcases hsplit with h0 | h0 | h0 | h0 | h0 | h0 | h0
      · exact absurd h0 (by decide)
      · revert h0; decide
      · revert h0; decide
      · exact hline (hfr_line _ h0)
      · revert h0; decide
      · exact absurd h0 (by decide)
      · exact hlabel h0

/-- Witness for the progress renderer theorem at a concrete input with no
recognizable source token. -/
theorem renderProgress_correct_witness :
    parseProgress "[1/2] ninja all".data = some ("[1/2]".data, "ninja all".data)
    ∧ renderProgress "[1/2] ninja all".data
        = some ('\r' :: (clearSeq ++ greenSeq ++ "[1/2]".data ++ resetSeq
            ++ ' ' :: progressLabel "ninja all".data)) :=
  ⟨by decide, renderProgress_correct.1 _ _ _ (by decide)⟩

/-! ### `CbpDataManager.moveQueueItem` on path lists

`moveQueueItem(sourceItems, target)`: abort when the target's path is not
in the queue; keep the source items that are in the queue (in source
order); remove them from the queue; insert the block at the target's index
in the reduced queue, with `findIndex` returning the length fallback when
the target was itself removed (`splice(length, 0, ...)` appends). -/

/-- `findIndex` on paths, with the `-1`-to-`length` fallback of the source
(`if (insertIndex === -1) insertIndex = newQueue.length`) built in: an
absent element maps to the list length. -/
def idxOf (t : String) : List String → Nat
  | [] => 0
  | x :: xs => if x = t then 0 else idxOf t xs + 1

/-- `moveQueueItem` of the data manager, on the queue's path list. -/
def moveQueueItem (queue sourceItems : List String) (target : String) : List String :=
  if target ∈ queue then
    (queue.filter
        (fun p => decide (p ∉ sourceItems.filter (fun s => decide (s ∈ queue))))).take
      (idxOf target (queue.filter
        (fun p => decide (p ∉ sourceItems.filter (fun s => decide (s ∈ queue))))))
    ++ sourceItems.filter (fun s => decide (s ∈ queue))
    ++ (queue.filter
        (fun p => decide (p ∉ sourceItems.filter (fun s => decide (s ∈ queue))))).drop
      (idxOf target (queue.filter
        (fun p => decide (p ∉ sourceItems.filter (fun s => decide (s ∈ queue))))))
  else queue

theorem idxOf_spec {t : String} :
    ∀ l : List String, t ∈ l →
      ∃ pre post, l = pre ++ t :: post ∧ t ∉ pre ∧ idxOf t l = pre.length := by
  intro l
  induction l with
  | nil => intro h; exact absurd h (by simp)
  | cons x xs ih =>
    intro h
    by_cases hx : x = t
    · subst hx
      exact ⟨[], xs, rfl, by simp, by simp [idxOf]⟩
    · have hmem : t ∈ xs := by
        rcases List.mem_cons.mp h with h2 | h2
        · exact absurd h2.symm hx
        · exact h2
      rcases ih hmem with ⟨pre, post, heq, hpre, hidx⟩
      refine ⟨x :: pre, post, by rw [heq]; rfl, ?_, ?_⟩
      · intro hc
        rcases List.mem_cons.mp hc with h2 | h2
        · exact hx h2.symm
        · exact hpre h2
      · simp [idxOf, hx, hidx]

theorem idxOf_of_not_mem {t : String} :
    ∀ l : List String, t ∉ l → idxOf t l = l.length := by
  intro l
  induction l with
  | nil => intro _; rfl
  | cons x xs ih =>
    intro h
    have hx : ¬x = t := fun hc => h (by simp [hc])
    have hxs : t ∉ xs := fun hc => h (List.mem_cons_of_mem _ hc)
    simp [idxOf, hx, ih hxs]

/-- C7: `moveQueueItem` is a no-op when the target is not in the queue;
otherwise it removes the source items that are in the queue and reinserts
them as one contiguous block at the position the target occupies after
removal, preserving the source items' relative order (the block is
literally the in-queue sublist of `sourceItems`); moving `[B, C]` onto `D`
in `[A, B, C, D, E]` leaves the queue unchanged, and onto `A` gives
`[B, C, A, D, E]`. -/
theorem moveQueueItem_correct :
    (∀ (queue s : List String) (t : String), t ∉ queue → moveQueueItem queue s t = queue)
    ∧ (∀ (queue s : List String) (t : String), t ∈ queue →
        t ∉ s.filter (fun x => decide (x ∈ queue)) →
        ∃ pre post,
          queue.filter (fun p => decide (p ∉ s.filter (fun x => decide (x ∈ queue))))
            = pre ++ t :: post
          ∧ t ∉ pre
          ∧ moveQueueItem queue s t
              = pre ++ s.filter (fun x => decide (x ∈ queue)) ++ t :: post)
    ∧ moveQueueItem ["A", "B", "C", "D", "E"] ["B", "C"] "D" = ["A", "B", "C", "D", "E"]
    ∧ moveQueueItem ["A", "B", "C", "D", "E"] ["B", "C"] "A" = ["B", "C", "A", "D", "E"] := by
  refine ⟨?_, ?_, by decide, by decide⟩
  · intro queue s t h
    simp [moveQueueItem, h]
  · intro queue s t htq htm
    have htnew : t ∈ queue.filter
        (fun p => decide (p ∉ s.filter (fun x => decide (x ∈ queue)))) := by
      rw [List.mem_filter]
      exact ⟨htq, decide_eq_true htm⟩
    rcases idxOf_spec _ htnew with ⟨pre, post, heq, hpre, hidx⟩
    refine ⟨pre, post, heq, hpre, ?_⟩
    rw [moveQueueItem, if_pos htq, hidx, heq]
    rw [List.take_left, List.drop_left]

/-- C10: when the target is itself among the moved source items (present in
the queue but absent after removal), `moveQueueItem` does not early-return:
`findIndex` misses, the index falls back to the reduced queue's length, and
the moved block (in source order) is appended at the end; moving `[B, C]`
onto `B` in `[A, B, C, D, E]` yields `[A, D, E, B, C]`, which differs from
the original queue. -/
theorem moveQueueItem_target_in_source :
    (∀ (queue s : List String) (t : String), t ∈ queue → t ∈ s →
      moveQueueItem queue s t
        = queue.filter (fun p => decide (p ∉ s.filter (fun x => decide (x ∈ queue))))
          ++ s.filter (fun x => decide (x ∈ queue)))
    ∧ moveQueueItem ["A", "B", "C", "D", "E"] ["B", "C"] "B" = ["A", "D", "E", "B", "C"]
    ∧ moveQueueItem ["A", "B", "C", "D", "E"] ["B", "C"] "B" ≠ ["A", "B", "C", "D", "E"] := by
  refine ⟨?_, by decide, by decide⟩
  intro queue s t htq hts
  have htm : t ∈ s.filter (fun x => decide (x ∈ queue)) := by
    rw [List.mem_filter]
    exact ⟨hts, decide_eq_true htq⟩
  have htnew : t ∉ queue.filter
      (fun p => decide (p ∉ s.filter (fun x => decide (x ∈ queue)))) := by
    intro hc
    rw [List.mem_filter] at hc
    exact of_decide_eq_true hc.2 htm
  rw [moveQueueItem, if_pos htq, idxOf_of_not_mem _ htnew]
  simp [List.take_length, List.drop_length]

/-- Witness for the `moveQueueItem` theorem: target `"D"` outside the moved
set in `[A, B, C, D, E]`. -/
theorem moveQueueItem_correct_witness :
    ("D" ∉ (["X"] : List String)
      ∧ moveQueueItem ["X"] ["B", "C"] "D" = ["X"])
    ∧ ("D" ∈ (["A", "B", "C", "D", "E"] : List String)
      ∧ ∃ pre post,
          (["A", "B", "C", "D", "E"] : List String).filter
              (fun p => decide (p ∉ (["B", "C"] : List String).filter
                (fun x => decide (x ∈ (["A", "B", "C", "D", "E"] : List String)))))
            = pre ++ "D" :: post
          ∧ "D" ∉ pre
          ∧ moveQueueItem ["A", "B", "C", "D", "E"] ["B", "C"] "D"
              = pre ++ (["B", "C"] : List String).filter
                  (fun x => decide (x ∈ (["A", "B", "C", "D", "E"] : List String)))
                ++ "D" :: post) :=
  ⟨⟨by decide, moveQueueItem_correct.1 ["X"] ["B", "C"] "D" (by decide)⟩,
   ⟨by decide, moveQueueItem_correct.2.1 ["A", "B", "C", "D", "E"] ["B", "C"] "D"
      (by decide) (by decide)⟩⟩

/-- Witness for the target-in-source theorem at the documented example. -/
theorem moveQueueItem_target_in_source_witness :
    moveQueueItem ["A", "B", "C", "D", "E"] ["B", "C"] "B"
      = (["A", "B", "C", "D", "E"] : List String).filter
          (fun p => decide (p ∉ (["B", "C"] : List String).filter
            (fun x => decide (x ∈ (["A", "B", "C", "D", "E"] : List String)))))
        ++ (["B", "C"] : List String).filter
            (fun x => decide (x ∈ (["A", "B", "C", "D", "E"] : List String))) :=
  moveQueueItem_target_in_source.1 ["A", "B", "C", "D", "E"] ["B", "C"] "B"
    (by decide) (by decide)

/-! ### `CbpDataManager`: queue state, persistence, catalog

State: ordered `buildQueue` of items (path, checked flag), the catalog
`allDetectedProjects`, and the persisted snapshot (`buildQueueOrder` path
list and `projectCheckState` map) written by `saveState`.  `scanWorkspace`
replaces the catalog and filters the queue — it fires the tree event but
does not call `saveState`. -/

/-- A queue entry: `fsPath` plus the checkbox state. -/
structure QItem where
  fsPath : String
  checked : Bool
deriving DecidableEq

/-- The manager's state, persisted snapshot included. -/
structure ManagerState where
  buildQueue : List QItem
  allDetectedProjects : List String
  persistedOrder : List String
  persistedCheck : List (String × Bool)
deriving DecidableEq

/-- `saveState`: write the queue's path order and checked-state map, both
derived from the same queue in one step. -/
def saveState (st : ManagerState) : ManagerState :=
  { st with
    persistedOrder := st.buildQueue.map (fun p => p.fsPath),
    persistedCheck := st.buildQueue.map (fun p => (p.fsPath, p.checked)) }

/-- `loadState`: rebuild the queue from the saved order, reading each
path's checked flag from the saved map with `?? true` as the default. -/
def loadState (savedQueuePaths : List String) (savedCheckState : List (String × Bool)) :
    List QItem :=
  savedQueuePaths.map (fun p => ⟨p, (savedCheckState.lookup p).getD true⟩)

/-- The `forEach` of `addToQueue`: push each path not already present (the
check sees previously pushed paths too), tracking whether anything changed. -/
def addAll : List QItem → List String → List QItem × Bool
  | q, [] => (q, false)
  | q, p :: ps =>
    if q.any (fun it => decide (it.fsPath = p)) then addAll q ps
    else ((addAll (q ++ [⟨p, true⟩]) ps).1, true)

/-- `addToQueue(fsPaths)`: append the new paths (checked), then persist and
notify only when something was added. -/
def addToQueue (st : ManagerState) (fsPaths : List String) : ManagerState :=
  if (addAll st.buildQueue fsPaths).2 then
    saveState { st with buildQueue := (addAll st.buildQueue fsPaths).1 }
  else st

/-- `removeFromQueue(items)`: drop every queued item whose path is in the
input set, then persist. -/
def removeFromQueue (st : ManagerState) (paths : List String) : ManagerState :=
  saveState { st with
    buildQueue := st.buildQueue.filter (fun p => decide (p.fsPath ∉ paths)) }

/-- `findIndex` fallback on items, by path. -/
def idxOfPath (t : String) : List QItem → Nat
  | [] => 0
  | x :: xs => if x.fsPath = t then 0 else idxOfPath t xs + 1

/-- The `itemsToMove` of the manager's `moveQueueItem`: source items whose
path is currently in the queue, in source order. -/
def itemsToMoveM (queue sourceItems : List QItem) : List QItem :=
  sourceItems.filter (fun s => queue.any (fun inQ => decide (inQ.fsPath = s.fsPath)))

/-- The `newQueue` of the manager's `moveQueueItem`: the queue with the
moved paths filtered out. -/
def reducedQueueM (queue sourceItems : List QItem) : List QItem :=
  queue.filter (fun p =>
    !((itemsToMoveM queue sourceItems).any (fun m => decide (m.fsPath = p.fsPath))))

/-- The spliced queue of the manager's `moveQueueItem`: moved block
inserted at the target's post-removal index (length fallback). -/
def movedQueueM (queue sourceItems : List QItem) (target : QItem) : List QItem :=
  (reducedQueueM queue sourceItems).take (idxOfPath target.fsPath (reducedQueueM queue sourceItems))
  ++ itemsToMoveM queue sourceItems
  ++ (reducedQueueM queue sourceItems).drop (idxOfPath target.fsPath (reducedQueueM queue sourceItems))

/-- `moveQueueItem` at the manager level: no-op (no save) when the target
path is absent, else rebuild the queue and persist. -/
def moveQueueItemM (st : ManagerState) (sourceItems : List QItem) (target : QItem) :
    ManagerState :=
  if st.buildQueue.any (fun p => decide (p.fsPath = target.fsPath)) then
    saveState { st with buildQueue := movedQueueM st.buildQueue sourceItems target }
  else st

/-- `updateCheckState(item, state)`: set the item's checked flag, persist. -/
def updateCheckState (st : ManagerState) (fsPath : String) (checked : Bool) : ManagerState :=
  saveState { st with buildQueue :=
      st.buildQueue.map (fun p => if p.fsPath = fsPath then ⟨p.fsPath, checked⟩ else p) }

/-- `scanWorkspace`: replace the catalog with the scan result and prune the
queue to it; the source fires the change event but never calls `saveState`
here. -/
def scanWorkspace (st : ManagerState) (cbpFiles : List String) : ManagerState :=
  { st with
    allDetectedProjects := cbpFiles,
    buildQueue := st.buildQueue.filter (fun it => decide (it.fsPath ∈ cbpFiles)) }

/-- The persisted snapshot agrees with the live queue: path order and
checked map both drawn from the current queue. -/
def persistedMatches (st : ManagerState) : Prop :=
  st.persistedOrder = st.buildQueue.map (fun p => p.fsPath)
  ∧ st.persistedCheck = st.buildQueue.map (fun p => (p.fsPath, p.checked))

/-- Every queued path is in the catalog. -/
def queueInCatalog (st : ManagerState) : Prop :=
  ∀ it ∈ st.buildQueue, it.fsPath ∈ st.allDetectedProjects

theorem persistedMatches_saveState (st : ManagerState) :
    persistedMatches (saveState st) :=
  ⟨rfl, rfl⟩

theorem addAll_mem :
    ∀ (ps : List String) (q : List QItem) (it : QItem), it ∈ (addAll q ps).1 →
      it ∈ q ∨ (it.fsPath ∈ ps ∧ it.checked = true) := by
  intro ps
  induction ps with
  | nil => intro q it h; exact Or.inl h
  | cons p rest ih =>
    intro q it h
    unfold addAll at h
    split at h
    · rcases ih q it h with h2 | h2
      · exact Or.inl h2
      · exact Or.inr ⟨List.mem_cons_of_mem _ h2.1, h2.2⟩
    · rcases ih (q ++ [⟨p, true⟩]) it h with h2 | h2
      · rcases List.mem_append.mp h2 with h3 | h3
        · exact Or.inl h3
        · simp at h3
          subst h3
          exact Or.inr ⟨by simp, rfl⟩
      · exact Or.inr ⟨List.mem_cons_of_mem _ h2.1, h2.2⟩
theorem any_path_exists {queue : List QItem} {p : String}
    (h : queue.any (fun inQ => decide (inQ.fsPath = p)) = true) :
    ∃ inQ ∈ queue, inQ.fsPath = p := by
  rcases List.any_eq_true.mp h with ⟨inQ, hmem, hdec⟩
  exact ⟨inQ, hmem, of_decide_eq_true hdec⟩

/-- Counterexample to C8 as stated: a rescan that prunes the queue mutates
it without writing the persisted state.  Starting from a consistent state
with `"a.cbp"` queued and persisted, a scan that finds no `.cbp` files
empties the queue while the persisted order still lists `"a.cbp"`. -/
theorem scanWorkspace_prune_not_persisted_cx :
    (scanWorkspace ⟨[⟨"a.cbp", true⟩], ["a.cbp"], ["a.cbp"], [("a.cbp", true)]⟩ []).buildQueue
        = []
    ∧ (scanWorkspace ⟨[⟨"a.cbp", true⟩], ["a.cbp"], ["a.cbp"], [("a.cbp", true)]⟩
        []).persistedOrder = ["a.cbp"]
    ∧ ¬ persistedMatches
        (scanWorkspace ⟨[⟨"a.cbp", true⟩], ["a.cbp"], ["a.cbp"], [("a.cbp", true)]⟩ []) := by
  refine ⟨by decide, by decide, ?_⟩
  intro h
  exact absurd h.1 (by decide)

/-- C8 (amended): `add` (when it changes the queue), `remove`, `move` (when
the target is found) and `set-checked` write the persisted snapshot — path
order and checked map together, derived from the same queue, so never
partially — and otherwise leave the state untouched; the rescan prune
leaves the persisted state unchanged (it does not write it); after a
rescan the queue is a subset of the new catalog, and the subset invariant
is preserved by remove, move, set-checked, and by add when the added paths
come from the catalog. -/
theorem queuePersistence_amended :
    (∀ st ps, addToQueue st ps = st ∨ persistedMatches (addToQueue st ps))
    ∧ (∀ st ps, persistedMatches (removeFromQueue st ps))
    ∧ (∀ st s t, moveQueueItemM st s t = st ∨ persistedMatches (moveQueueItemM st s t))
    ∧ (∀ st p b, persistedMatches (updateCheckState st p b))
    ∧ (∀ st files, queueInCatalog (scanWorkspace st files)
        ∧ (scanWorkspace st files).persistedOrder = st.persistedOrder
        ∧ (scanWorkspace st files).persistedCheck = st.persistedCheck)
    ∧ (∀ st ps, queueInCatalog st → (∀ p ∈ ps, p ∈ st.allDetectedProjects) →
        queueInCatalog (addToQueue st ps))
    ∧ (∀ st ps, queueInCatalog st → queueInCatalog (removeFromQueue st ps))
    ∧ (∀ st s t, queueInCatalog st → queueInCatalog (moveQueueItemM st s t))
    ∧ (∀ st p b, queueInCatalog st → queueInCatalog (updateCheckState st p b)) := by
  refine ⟨?_, ?_, ?_, ?_, ?_, ?_, ?_, ?_, ?_⟩
  · intro st ps
    unfold addToQueue
    split
    · exact Or.inr (persistedMatches_saveState _)
    · exact Or.inl rfl
  · intro st ps
    exact persistedMatches_saveState _
  · intro st s t
    unfold moveQueueItemM
    split
    · exact Or.inr (persistedMatches_saveState _)
    · exact Or.inl rfl
  · intro st p b
    exact persistedMatches_saveState _
  · intro st files
    refine ⟨?_, rfl, rfl⟩
    intro it hmem
    rw [show (scanWorkspace st files).buildQueue
        = st.buildQueue.filter (fun it => decide (it.fsPath ∈ files)) from rfl] at hmem
    rw [List.mem_filter] at hmem
    exact of_decide_eq_true hmem.2
  · intro st ps hq hps
    unfold addToQueue
    split
    · intro it hmem
      rcases addAll_mem ps st.buildQueue it hmem with h | h
      · exact hq it h
      · exact hps _ h.1
    · exact hq
  · intro st ps hq it hmem
    rw [show (removeFromQueue st ps).buildQueue
        = st.buildQueue.filter (fun p => decide (p.fsPath ∉ ps)) from rfl] at hmem
    exact hq it (List.mem_filter.mp hmem).1
  · intro st s t hq
    unfold moveQueueItemM
    split
    · intro it hmem
      rw [show (saveState { st with buildQueue := movedQueueM st.buildQueue s t }).buildQueue
          = movedQueueM st.buildQueue s t from rfl] at hmem
      unfold movedQueueM at hmem
      rcases List.mem_append.mp hmem with hm | hm
      · rcases List.mem_append.mp hm with hm2 | hm2
        · have : it ∈ reducedQueueM st.buildQueue s := List.take_subset _ _ hm2
          exact hq it (List.mem_filter.mp (by exact this)).1
        · rw [itemsToMoveM, List.mem_filter] at hm2
          rcases any_path_exists hm2.2 with ⟨inQ, hinQ, hpath⟩
          rw [← hpath]
          exact hq inQ hinQ
      · have : it ∈ reducedQueueM st.buildQueue s := List.drop_subset _ _ hm
        exact hq it (List.mem_filter.mp (by exact this)).1
    · exact hq
  · intro st p b hq it hmem
    rw [show (updateCheckState st p b).buildQueue
        = st.buildQueue.map (fun q => if q.fsPath = p then ⟨q.fsPath, b⟩ else q)
        from rfl] at hmem
    rcases List.mem_map.mp hmem with ⟨q, hqmem, hqeq⟩
    have hpath : it.fsPath = q.fsPath := by
      rw [← hqeq]
      split <;> rfl
    rw [hpath]
    exact hq q hqmem

/-- Witness for the amended persistence theorem: adding a catalog path to
an empty consistent state keeps the queue inside the catalog. -/
theorem queuePersistence_amended_witness :
    queueInCatalog
      (addToQueue ⟨[], ["x.cbp"], [], []⟩ ["x.cbp"]) :=
  queuePersistence_amended.2.2.2.2.2.1 ⟨[], ["x.cbp"], [], []⟩ ["x.cbp"]
    (fun it h => absurd h (by simp)) (fun p h => by simpa using h)

/-- C9: `addToQueue` creates every newly added entry with its checked flag
`true` (an entry of the new queue is an old entry or is checked); on load
a queued path reads its checked flag from the persisted map with default
`true`, so an entry loads unchecked only when the map explicitly stores
`false` for its path. -/
theorem addToQueue_defaults_checked :
    (∀ st ps it, it ∈ (addToQueue st ps).buildQueue →
        it ∈ st.buildQueue ∨ it.checked = true)
    ∧ (∀ (order : List String) (cm : List (String × Bool)) it,
        it ∈ loadState order cm → it.checked = ((cm.lookup it.fsPath).getD true))
    ∧ (∀ (order : List String) (cm : List (String × Bool)) it,
        it ∈ loadState order cm → it.checked = false →
        cm.lookup it.fsPath = some false) := by
  have hload : ∀ (order : List String) (cm : List (String × Bool)) (it : QItem),
      it ∈ loadState order cm → it.checked = ((cm.lookup it.fsPath).getD true) := by
    intro order cm it hmem
    rcases List.mem_map.mp hmem with ⟨p, _, hpeq⟩
    rw [← hpeq]
  refine ⟨?_, hload, ?_⟩
  · intro st ps it hmem
    unfold addToQueue at hmem
    split at hmem
    · rcases addAll_mem ps st.buildQueue it hmem with h | h
      · exact Or.inl h
      · exact Or.inr h.2
    · exact Or.inl hmem
  · intro order cm it hmem hfalse
    have := hload order cm it hmem
    rw [hfalse] at this
    cases hlk : cm.lookup it.fsPath with
    | none => rw [hlk] at this; exact absurd this.symm (by decide)
    | some b =>
      rw [hlk] at this
      simp only [Option.getD_some] at this
      rw [← this]

/-- Witness for the default-checked theorem: adding `"x.cbp"` to an empty
queue yields a checked entry. -/
theorem addToQueue_defaults_checked_witness :
    (⟨"x.cbp", true⟩ : QItem) ∈ (addToQueue ⟨[], [], [], []⟩ ["x.cbp"]).buildQueue
    ∧ ((⟨"x.cbp", true⟩ : QItem) ∈ (⟨[], [], [], []⟩ : ManagerState).buildQueue
        ∨ (⟨"x.cbp", true⟩ : QItem).checked = true) :=
  ⟨by decide, addToQueue_defaults_checked.1 ⟨[], [], [], []⟩ ["x.cbp"] ⟨"x.cbp", true⟩ (by decide)⟩

/-! ### Orchestrator: `checkCbp2clangVersion` and `buildSelected`

The version query spawns `cbp2clang -v`; the spawn outcome is modelled as
`Except` of either a spawn error message or `(exit code, stdout text)`.
On exit 0 the code matches `/v([0-9]+\.[0-9]+\.[0-9]+)/` against stdout
and resolves the captured group — or, when the regex does NOT match,
resolves `version.trim()` instead of rejecting.  Any rejection, or a
version comparing below the minimum, aborts `buildSelected` before the
per-project loop; inside the loop each step is awaited and a throw is
caught per project, logging a failure and continuing. -/

/-- JavaScript `String.prototype.trim` on both ends. -/
def jsTrim (l : List Char) : List Char :=
  ((l.dropWhile Char.isWhitespace).reverse.dropWhile Char.isWhitespace).reverse

/-- Try `/v([0-9]+\.[0-9]+\.[0-9]+)/` anchored at the front: `'v'`, then
three non-empty maximal digit runs separated by `'.'`. -/
def vTokenAt : List Char → Option (List Char)
  | 'v' :: r0 =>
    match r0.dropWhile Char.isDigit with
    | '.' :: r1 =>
      match r1.dropWhile Char.isDigit with
      | '.' :: r2 =>
        if (r0.takeWhile Char.isDigit).length = 0
            ∨ (r1.takeWhile Char.isDigit).length = 0
            ∨ (r2.takeWhile Char.isDigit).length = 0 then none
        else some (r0.takeWhile Char.isDigit ++ '.' :: (r1.takeWhile Char.isDigit
              ++ '.' :: r2.takeWhile Char.isDigit))
      | _ => none
    | _ => none
  | _ => none

/-- First match of `/v([0-9]+\.[0-9]+\.[0-9]+)/` in the text: start
positions tried left to right. -/
def parseVToken : List Char → Option (List Char)
  | [] => none
  | c :: rest =>
    match vTokenAt (c :: rest) with
    | some v => some v
    | none => parseVToken rest

/-- `checkCbp2clangVersion`: reject on spawn error or non-zero exit;
on exit 0 resolve the captured `v`-token, or the trimmed raw stdout when
the token does not parse (the source `resolve(version.trim())` fallback).
Error messages are summarized; the orchestrator only matches on
success/failure. -/
def checkCbp2clangVersion (spawnOutcome : Except String (Nat × List Char)) :
    Except String (List Char) :=
  match spawnOutcome with
  | .error e => .error ("Failed to execute cbp2clangd: " ++ e)
  | .ok (code, out) =>
    if code = 0 then
      match parseVToken out with
      | some v => .ok v
      | none => .ok (jsTrim out)
    else .error "Failed to check cbp2clangd version"

/-- A queued project as the build command sees it. -/
structure Project where
  label : String
  fsPath : String
  checked : Bool
deriving DecidableEq

/-- Outcome of one `runCommand`/`runCommandInDirectory` invocation:
the process closed with an exit code, or spawning failed. -/
inductive StepResult where
  | exit (code : Nat)
  | spawnError (msg : String)
deriving DecidableEq

/-- The promise resolves only on exit code 0. -/
def stepOk : StepResult → Bool
  | .exit 0 => true
  | _ => false

/-- One `ProcessRunner.run` invocation of the per-project loop. -/
inductive RunCall where
  | convert (fsPath : String)
  | build (fsPath : String)
deriving DecidableEq

/-- A failure surfaced by `buildSelected` (terminal write with the error
marker plus the error popup). -/
inductive BuildFailure where
  | versionUnavailable (msg : String)
  | versionIncompatible (version : List Char) (minVer : String)
  | stepFailed (fsPath : String)
deriving DecidableEq

/-- The observable outcome of one `buildSelected` run: the
`ProcessRunner.run` invocations in order, and the surfaced failures. -/
structure BuildRun where
  runCalls : List RunCall
  failures : List BuildFailure
deriving DecidableEq

/-- One iteration of the `for (const project of selectedProjects)` loop:
the convert step always runs; the build step runs only when convert
resolved; a throw from either step is caught, logged as a failure for this
project only. -/
def runProject (p : Project) (r : StepResult × StepResult) :
    List RunCall × List BuildFailure :=
  if stepOk r.1 then
    if stepOk r.2 then ([.convert p.fsPath, .build p.fsPath], [])
    else ([.convert p.fsPath, .build p.fsPath], [.stepFailed p.fsPath])
  else ([.convert p.fsPath], [.stepFailed p.fsPath])

/-- The whole per-project loop, step outcomes supplied per project index. -/
def runLoop : List Project → (Nat → StepResult × StepResult) → BuildRun
  | [], _ => ⟨[], []⟩
  | p :: ps, res =>
    ⟨(runProject p (res 0)).1 ++ (runLoop ps (fun i => res (i + 1))).runCalls,
     (runProject p (res 0)).2 ++ (runLoop ps (fun i => res (i + 1))).failures⟩

/-- `buildSelected`: filter the checked queue entries, return early when
none; run the version gate (abort with a single failure on rejection or
incompatibility); otherwise run the per-project loop. -/
def buildSelected (queue : List Project) (spawnOutcome : Except String (Nat × List Char))
    (minVer : String) (res : Nat → StepResult × StepResult) : BuildRun :=
  if (queue.filter (fun p => p.checked)).isEmpty then ⟨[], []⟩
  else
    match checkCbp2clangVersion spawnOutcome with
    | .error msg => ⟨[], [.versionUnavailable msg]⟩
    | .ok v =>
      if compareVersionsCore v minVer.data then
        runLoop (queue.filter (fun p => p.checked)) res
      else ⟨[], [.versionIncompatible v minVer]⟩

/-- The version gate as a predicate: the check resolved and the resolved
version compares at or above the minimum. -/
def versionGatePasses (spawnOutcome : Except String (Nat × List Char)) (minVer : String) :
    Bool :=
  match checkCbp2clangVersion spawnOutcome with
  | .error _ => false
  | .ok v => compareVersionsCore v minVer.data

/-- Counterexample to C2 as stated: on exit 0 with output in which the
`v<maj>.<min>.<patch>` token does NOT parse, `checkCbp2clangVersion`
resolves the trimmed raw output instead of rejecting, and when that string
compares at or above the minimum (here `"999"` against `"1.2.1"`) the run
proceeds: the convert and build steps are invoked and no failure is
surfaced, contradicting "output fails to parse implies the whole run
aborts with exactly one failure". -/
theorem versionGate_parse_failure_cx :
    parseVToken "999".data = none
    ∧ (buildSelected [⟨"P1", "p1.cbp", true⟩] (.ok (0, "999".data)) "1.2.1"
        (fun _ => (.exit 0, .exit 0))).runCalls
        = [.convert "p1.cbp", .build "p1.cbp"]
    ∧ (buildSelected [⟨"P1", "p1.cbp", true⟩] (.ok (0, "999".data)) "1.2.1"
        (fun _ => (.exit 0, .exit 0))).failures = [] :=
  ⟨by decide, by decide, by decide⟩

/-- C2 (amended): when the selection is non-empty and the version gate does
not pass — the query failed to spawn, exited non-zero, or the resolved
version string (the parsed `v`-token, or the trimmed raw output when no
token parses) compares below the configured minimum — `buildSelected`
aborts before any per-target step: no `ProcessRunner.run` call is made and
exactly one explanatory failure is surfaced. -/
theorem versionGate_blocks :
    ∀ (queue : List Project) (spawnOutcome : Except String (Nat × List Char))
      (minVer : String) (res : Nat → StepResult × StepResult),
      (queue.filter (fun p => p.checked)).isEmpty = false →
      versionGatePasses spawnOutcome minVer = false →
      (buildSelected queue spawnOutcome minVer res).runCalls = []
      ∧ (buildSelected queue spawnOutcome minVer res).failures.length = 1 := by
  intro queue spawnOutcome minVer res hne hgate
  unfold buildSelected
  rw [hne]
  simp only [Bool.false_eq_true, if_false]
  unfold versionGatePasses at hgate
  cases hchk : checkCbp2clangVersion spawnOutcome with
  | error msg => exact ⟨rfl, rfl⟩
  | ok v =>
    rw [hchk] at hgate
    have hgate2 : compareVersionsCore v minVer.data = false := hgate
    simp [hgate2]

/-- Witness for the version gate theorem at the spec's end-to-end
scenario: two checked targets, tool reports `v1.1.5`, minimum `1.2.7`. -/
theorem versionGate_blocks_witness :
    (([⟨"T1", "t1.cbp", true⟩, ⟨"T2", "t2.cbp", true⟩] : List Project).filter
        (fun p => p.checked)).isEmpty = false
    ∧ versionGatePasses (.ok (0, "cbp2clangd v1.1.5".data)) "1.2.7" = false
    ∧ (buildSelected [⟨"T1", "t1.cbp", true⟩, ⟨"T2", "t2.cbp", true⟩]
        (.ok (0, "cbp2clangd v1.1.5".data)) "1.2.7" (fun _ => (.exit 0, .exit 0))).runCalls = []
    ∧ (buildSelected [⟨"T1", "t1.cbp", true⟩, ⟨"T2", "t2.cbp", true⟩]
        (.ok (0, "cbp2clangd v1.1.5".data)) "1.2.7"
        (fun _ => (.exit 0, .exit 0))).failures.length = 1 := by
  refine ⟨by decide, by decide, ?_, ?_⟩
  · exact (versionGate_blocks _ _ _ _ (by decide) (by decide)).1
  · exact (versionGate_blocks _ _ _ _ (by decide) (by decide)).2

theorem runLoop_mem :
    ∀ (sel : List Project) (res : Nat → StepResult × StepResult) (i : Nat)
      (h : i < sel.length),
      RunCall.convert (sel[i].fsPath) ∈ (runLoop sel res).runCalls
      ∧ (stepOk (res i).1 = true →
          RunCall.build (sel[i].fsPath) ∈ (runLoop sel res).runCalls)
      ∧ ((stepOk (res i).1 = false ∨ stepOk (res i).2 = false) →
          BuildFailure.stepFailed (sel[i].fsPath) ∈ (runLoop sel res).failures) := by
  intro sel
  induction sel with
  | nil => intro res i h; exact absurd h (by simp)
  | cons p ps ih =>
    intro res i h
    cases i with
    | zero =>
      refine ⟨?_, ?_, ?_⟩
      · rw [runLoop]
        apply List.mem_append_left
        unfold runProject
        split
        · split
          · exact List.mem_cons_self _ _
          · exact List.mem_cons_self _ _
        · exact List.mem_cons_self _ _
      · intro hok
        rw [runLoop]
        apply List.mem_append_left
        unfold runProject
        rw [hok]
        simp only [if_true]
        split
        · exact List.mem_cons_of_mem _ (List.mem_cons_self _ _)
        · exact List.mem_cons_of_mem _ (List.mem_cons_self _ _)
      · intro hfail
        rw [runLoop]
        apply List.mem_append_left
        unfold runProject
        rcases hfail with hf | hf
        · rw [hf]
          simp
        · split
          · rw [hf]
            simp
          · simp
    | succ j =>
      have hj : j < ps.length := by simpa using h
      have := ih (fun k => res (k + 1)) j hj
      have hget : (p :: ps)[j + 1] = ps[j] := by simp
      rw [hget]
      refine ⟨?_, ?_, ?_⟩
      · rw [runLoop]
        exact List.mem_append_right _ this.1
      · intro hok
        rw [runLoop]
        exact List.mem_append_right _ (this.2.1 hok)
      · intro hfail
        rw [runLoop]
        exact List.mem_append_right _ (this.2.2 hfail)

theorem buildSelected_eq_runLoop
    {queue : List Project} {spawnOutcome : Except String (Nat × List Char)}
    {minVer : String} {res : Nat → StepResult × StepResult}
    (hne : (queue.filter (fun p => p.checked)).isEmpty = false)
    (hgate : versionGatePasses spawnOutcome minVer = true) :
    buildSelected queue spawnOutcome minVer res
      = runLoop (queue.filter (fun p => p.checked)) res := by
  unfold buildSelected
  rw [hne]
  simp only [Bool.false_eq_true, if_false]
  unfold versionGatePasses at hgate
  cases hchk : checkCbp2clangVersion spawnOutcome with
  | error msg =>
    rw [hchk] at hgate
    exact absurd hgate (by simp)
  | ok v =>
    rw [hchk] at hgate
    have hgate2 : compareVersionsCore v minVer.data = true := hgate
    simp [hgate2]

/-- C3: once the version gate passes, every selected target is processed
regardless of other targets' outcomes: target `i`'s convert step is always
invoked, its build step is invoked whenever its own convert step resolved,
and a failing step surfaces a failure for that target while the loop goes
on; in the spec's scenario — two checked targets, first build exits with
code 2 — the second target's convert and build steps still run and exactly
the first target's failure is logged. -/
theorem perTargetLoop_isolates_failures :
    (∀ (queue : List Project) (spawnOutcome : Except String (Nat × List Char))
        (minVer : String) (res : Nat → StepResult × StepResult),
      versionGatePasses spawnOutcome minVer = true →
      ∀ i, ∀ h : i < (queue.filter (fun p => p.checked)).length,
        RunCall.convert ((queue.filter (fun p => p.checked))[i].fsPath)
            ∈ (buildSelected queue spawnOutcome minVer res).runCalls
        ∧ (stepOk (res i).1 = true →
            RunCall.build ((queue.filter (fun p => p.checked))[i].fsPath)
              ∈ (buildSelected queue spawnOutcome minVer res).runCalls)
        ∧ ((stepOk (res i).1 = false ∨ stepOk (res i).2 = false) →
            BuildFailure.stepFailed ((queue.filter (fun p => p.checked))[i].fsPath)
              ∈ (buildSelected queue spawnOutcome minVer res).failures))
    ∧ buildSelected [⟨"P1", "p1.cbp", true⟩, ⟨"P2", "p2.cbp", true⟩]
        (.ok (0, "cbp2clangd v1.2.7".data)) "1.2.1"
        (fun i => if i = 0 then (.exit 0, .exit 2) else (.exit 0, .exit 0))
        = ⟨[.convert "p1.cbp", .build "p1.cbp", .convert "p2.cbp", .build "p2.cbp"],
           [.stepFailed "p1.cbp"]⟩ := by
  refine ⟨?_, by decide⟩
  intro queue spawnOutcome minVer res hgate i h
  have hne : (queue.filter (fun p => p.checked)).isEmpty = false := by
    cases hq : queue.filter (fun p => p.checked) with
    | nil => rw [hq] at h; exact absurd h (by simp)
    | cons a l => rfl
  rw [buildSelected_eq_runLoop hne hgate]
  exact runLoop_mem _ res i h

/-- Witness for the per-target isolation theorem: second target of the
failing-first-build scenario. -/
theorem perTargetLoop_isolates_failures_witness :
    RunCall.convert "p2.cbp"
      ∈ (buildSelected [⟨"P1", "p1.cbp", true⟩, ⟨"P2", "p2.cbp", true⟩]
          (.ok (0, "cbp2clangd v1.2.7".data)) "1.2.1"
          (fun i => if i = 0 then (.exit 0, .exit 2) else (.exit 0, .exit 0))).runCalls
    ∧ RunCall.build "p2.cbp"
      ∈ (buildSelected [⟨"P1", "p1.cbp", true⟩, ⟨"P2", "p2.cbp", true⟩]
          (.ok (0, "cbp2clangd v1.2.7".data)) "1.2.1"
          (fun i => if i = 0 then (.exit 0, .exit 2) else (.exit 0, .exit 0))).runCalls := by
  have h := perTargetLoop_isolates_failures.1
    [⟨"P1", "p1.cbp", true⟩, ⟨"P2", "p2.cbp", true⟩]
    (.ok (0, "cbp2clangd v1.2.7".data)) "1.2.1"
    (fun i => if i = 0 then (.exit 0, .exit 2) else (.exit 0, .exit 0))
    (by decide) 1 (by decide)
  exact ⟨h.1, h.2.1 (by decide)⟩

end CbpBuildManager
